import Mathlib

/-!
Verification of the triplet-approximator core of `moltemplate_helpers.py`
(`unique_enum`, `cubicity`, `decompose`).

Modelling conventions:
* Python ints are `Int`; Python float arithmetic appearing here is modelled by
  exact rationals (`ℚ`).  Every float value reached by the code under the
  claims' input ranges (`r * 0.5`, `r * 1.7`, `n ** (1/3)`) is close enough to
  the exact rational that Python's `round` of the float agrees with banker's
  rounding of the exact rational; comments at each definition justify this.
* The generator `unique_enum` is modelled by the list of the values it yields
  (each yield is a snapshot of the mutated list at yield time).
* `raise Exception(msg)` is modelled by `Except.error msg`.
* The unbounded `while` loop of the generator is modelled with a fuel
  parameter; the fuel chosen in `unique_enum` is proved sufficient below, so
  the `none` (fuel-exhausted) branch is unreachable.
-/

deriving instance DecidableEq for Except

/-- A Python numeric value as passed to `unique_enum`: an `int` or a `float`
(float values modelled as exact rationals). -/
inductive PyNum : Type where
  | int : Int → PyNum
  | float : ℚ → PyNum
deriving DecidableEq

/-- Numeric value of a `PyNum`, used for Python's `<` / `>` comparisons. -/
def PyNum.toRat : PyNum → ℚ
  | .int n => (n : ℚ)
  | .float q => q

/-- Python's `isinstance(x, int)` for a `PyNum`. -/
def PyNum.isInt : PyNum → Bool
  | .int _ => true
  | .float _ => false

/-- One pass of the increment-with-carry step of `unique_enum`'s loop body
(lines 52-58 of the source): increment the first entry; while the entry
overflows `upper_bound`, carry into the next entry; finally reset every entry
below the carry position to the value at the carry position.  Carrying off the
end of the list (only possible from the all-`upper` state, where the source's
loop has already stopped, or from states unreachable in the source) is mapped
to `[]`. -/
def incStep (hi : Int) : List Int → List Int
  | [] => []
  | x :: rest =>
    if hi < x + 1 then
      match incStep hi rest with
      | [] => []
      | y :: rest' => y :: y :: rest'
    else (x + 1) :: rest

/-- The yield sequence of `unique_enum`'s main loop (lines 46-60 of the
source): yield the current list, then step with `incStep` until the all-`hi`
list `top` is reached.  `fuel` bounds the number of yields; `none` means the
fuel ran out before `top` was reached (proved unreachable for the fuel used in
`unique_enum`). -/
def enumAux (hi : Int) (top : List Int) : Nat → List Int → Option (List (List Int))
  | 0, _ => none
  | fuel + 1, cur =>
    if cur = top then some [cur]
    else (enumAux hi top fuel (incStep hi cur)).map (fun l => cur :: l)

/-- `unique_enum(lower_bound, upper_bound, length)` (source lines 8-60),
modelled as the list of yielded snapshots.  The two error checks are in source
order: the bound comparison (line 40) runs before the integer-type check
(line 42). -/
def unique_enum (lb ub : PyNum) (L : Nat := 3) : Except String (List (List Int)) :=
  if ub.toRat < lb.toRat then .error "Lower bound exceeds upper bound"
  else
    match lb, ub with
    | .int lo, .int hi =>
      match enumAux hi (List.replicate L hi) (((hi - lo).toNat + 1) ^ L) (List.replicate L lo) with
      | some l => .ok l
      | none => .error "fuel exhausted"
    | _, _ => .error "Lower and upper bound must be integers"

/-- `cubicity(triplet)` (source lines 63-85).  `sum(triplet)/3` is float true
division, modelled exactly in `ℚ`; the source reads `triplet[0]` and
`triplet[2]`, with the `triplet[2]` term duplicated.  Lists shorter than 3
raise `IndexError` in Python and are not used by the callers; they are given
the junk value 0 here. -/
def cubicity : List Int → ℚ
  | a :: b :: c :: rest =>
    |((a :: b :: c :: rest).sum : ℚ) / 3 - (a : ℚ)|
      + |((a :: b :: c :: rest).sum : ℚ) / 3 - (c : ℚ)|
      + |((a :: b :: c :: rest).sum : ℚ) / 3 - (c : ℚ)|
  | _ => 0

/-- `factors[0]*factors[1]*factors[2]` (source line 120).  Shorter lists raise
`IndexError` in Python and never occur; junk value 0. -/
def tripletProd : List Int → Int
  | a :: b :: c :: _ => a * b * c
  | _ => 0

/-- Linear search for the least `r`, starting at `r0`, with
`8*n < (2*r+1)^3`, examining at most `fuel` candidates. -/
def cubeRootAux (n : Nat) : Nat → Nat → Nat
  | 0, r0 => r0
  | fuel + 1, r0 => if 8 * n < (2 * r0 + 1) ^ 3 then r0 else cubeRootAux n fuel (r0 + 1)

/-- `root = round(number**(1/3))` (source line 109): the nearest integer to the
real cube root of `n`.  Since `(2r+1)^3` is odd and `8n` even, `n^(1/3)` is
never exactly halfway between integers, so the nearest integer is the least
`r` with `8n < (2r+1)^3`.  For every `n` in the claims' range the Python float
`n**(1/3)` is far closer to the real cube root than the real cube root is to a
half-integer boundary, so `round` gives the same result on both. -/
def droot (n : Nat) : Nat := cubeRootAux n (n + 1) 0

/-- `round(root*0.5)` (source line 113).  `r*0.5` is exact in floating point,
and Python's `round` is half-to-even: for even `r` the value `r/2` is an
integer; for odd `r` the tie `r/2 + 0.5` resolves to the even neighbour. -/
def pyHalfRound (r : Nat) : Nat :=
  if r % 2 = 0 then r / 2
  else if (r / 2) % 2 = 0 then r / 2 else r / 2 + 1

/-- `round(root*1.7)` (source line 114).  The exact value is `17r/10`; the
float product `r * float(1.7)` rounds to the double nearest `17r/10`, which
(for the root sizes reachable here) is the exact decimal itself whenever
`17r/10` has one decimal digit, including the `.5` ties (`r ≡ 5 mod 10`),
where Python's `round` resolves to the even neighbour. -/
def pyRound17 (r : Nat) : Nat :=
  if (17 * r) % 10 = 5 then
    (if ((17 * r) / 10) % 2 = 0 then (17 * r) / 10 else (17 * r) / 10 + 1)
  else ((17 * r) + 5) / 10

/-- `lower` bound of `decompose`'s search window (source lines 110-113). -/
def dlower (n : Nat) : Int :=
  if droot n ≤ 5 then 0
  else min ((pyHalfRound (droot n) : Int)) ((droot n : Int) - 5)

/-- `upper` bound of `decompose`'s search window (source line 114). -/
def dupper (n : Nat) : Int :=
  max ((pyRound17 (droot n) : Int)) ((droot n : Int) + 5)

/-- Initial best record of `decompose`'s search (source lines 117-118):
`([lower]*3, abs(number - lower**3))`. -/
def searchInit (n : Nat) : List Int × Int :=
  ([dlower n, dlower n, dlower n], |(n : Int) - dlower n ^ 3|)

/-- Loop body of `decompose`'s search (source lines 119-127): keep the best
record on strictly larger error, replace it on strictly smaller error, and on
a tie replace the triplet only when the candidate's cubicity is strictly
smaller. -/
def searchStep (number : Int) (best : List Int × Int) (factors : List Int) : List Int × Int :=
  let error := |number - tripletProd factors|
  if best.2 < error then best
  else if error < best.2 then (factors, error)
  else if cubicity factors < cubicity best.1 then (factors, best.2)
  else best

/-- `decompose(number)` (source lines 88-130) for `number ≥ 0`.  Returns
`none` only if the enumeration's fuel were insufficient (proved impossible
below). -/
def decompose (n : Nat) : Option (List Int × Int) :=
  match unique_enum (.int (dlower n)) (.int (dupper n)) 3 with
  | .ok l => some (l.foldl (searchStep (n : Int)) (searchInit n))
  | .error _ => none

/-! ### Computational companion to `cubicity`

`cubicity` lives in `ℚ` (it models float arithmetic), and rational arithmetic
does not reduce inside the kernel; `cubicityI` is three times `cubicity`,
computed purely in `ℤ`, used to evaluate `decompose` on concrete inputs
through the equivalences proved below. -/

/-- `3 * cubicity`, computed in `ℤ`. -/
def cubicityI : List Int → Int
  | a :: b :: c :: rest =>
    |(a :: b :: c :: rest).sum - 3 * a|
      + |(a :: b :: c :: rest).sum - 3 * c|
      + |(a :: b :: c :: rest).sum - 3 * c|
  | _ => 0

theorem cubicity_eq_cubicityI_div (t : List Int) : cubicity t = (cubicityI t : ℚ) / 3 := by
  match t with
  | [] => simp [cubicity, cubicityI]
  | [a] => simp [cubicity, cubicityI]
  | [a, b] => simp [cubicity, cubicityI]
  | a :: b :: c :: rest =>
    show (_ : ℚ) = _
    rw [cubicity, cubicityI]
    have h : ∀ x : ℤ, |(((a :: b :: c :: rest).sum : ℤ) : ℚ) / 3 - (x : ℚ)|
        = ((|(a :: b :: c :: rest).sum - 3 * x| : ℤ) : ℚ) / 3 := by
      intro x
      rw [show (((a :: b :: c :: rest).sum : ℤ) : ℚ) / 3 - (x : ℚ)
            = (((a :: b :: c :: rest).sum - 3 * x : ℤ) : ℚ) / 3 by push_cast; ring]
      rw [abs_div]
      norm_num
    rw [h a, h c]
    push_cast
    ring

theorem cubicity_lt_iff (t u : List Int) : cubicity t < cubicity u ↔ cubicityI t < cubicityI u := by
  rw [cubicity_eq_cubicityI_div, cubicity_eq_cubicityI_div,
    div_lt_div_iff_of_pos_right (by norm_num : (0:ℚ) < 3)]
  exact_mod_cast Iff.rfl

/-- `searchStep` with the tie-break comparison carried out in `ℤ`;
pointwise equal to `searchStep`. -/
def searchStepI (number : Int) (best : List Int × Int) (factors : List Int) : List Int × Int :=
  let error := |number - tripletProd factors|
  if best.2 < error then best
  else if error < best.2 then (factors, error)
  else if cubicityI factors < cubicityI best.1 then (factors, best.2)
  else best

theorem searchStep_eq_searchStepI (number : Int) (best : List Int × Int) (factors : List Int) :
    searchStep number best factors = searchStepI number best factors := by
  show (if best.2 < |number - tripletProd factors| then best
      else if |number - tripletProd factors| < best.2 then (factors, |number - tripletProd factors|)
      else if cubicity factors < cubicity best.1 then (factors, best.2) else best)
    = (if best.2 < |number - tripletProd factors| then best
      else if |number - tripletProd factors| < best.2 then (factors, |number - tripletProd factors|)
      else if cubicityI factors < cubicityI best.1 then (factors, best.2) else best)
  by_cases h1 : best.2 < |number - tripletProd factors|
  · rw [if_pos h1, if_pos h1]
  · rw [if_neg h1, if_neg h1]
    by_cases h2 : |number - tripletProd factors| < best.2
    · rw [if_pos h2, if_pos h2]
    · rw [if_neg h2, if_neg h2]
      exact if_congr (cubicity_lt_iff _ _) rfl rfl

/-- `decompose` with the fold carried out by `searchStepI`;
equal to `decompose`. -/
def decomposeI (n : Nat) : Option (List Int × Int) :=
  match unique_enum (.int (dlower n)) (.int (dupper n)) 3 with
  | .ok l => some (l.foldl (searchStepI (n : Int)) (searchInit n))
  | .error _ => none

theorem decompose_eq_decomposeI (n : Nat) : decompose n = decomposeI n := by
  unfold decompose decomposeI
  have h : searchStep (n : Int) = searchStepI (n : Int) :=
    funext fun b => funext fun f => searchStep_eq_searchStepI _ b f
  rw [h]

set_option maxRecDepth 8000

/-! ### Reference characterisation of the enumeration

`refEnum lo hi L` lists, in the odometer order used by the source's generator,
all length-`L` integer lists over `[lo, hi]` that are non-increasing from head
to tail: first every list ending in `lo` (recursively, all the length-`(L-1)`
lists over `[lo, hi]` with that last entry appended), then every list whose
last entry is at least `lo + 1`.  The theorems below prove that the yield list
of `unique_enum` equals `refEnum`, and derive the counting, distinctness,
bounds and ordering facts from `refEnum`'s structural recursion. -/

/-- Reference listing of the sequences yielded by `unique_enum lo hi L`. -/
def refEnum (lo hi : Int) : Nat → List (List Int)
  | 0 => [[]]
  | k + 1 =>
    ((refEnum lo hi k).map (fun x => x ++ [lo]))
      ++ (if _h : lo < hi then refEnum (lo + 1) hi (k + 1) else [])
termination_by L => ((hi - lo).toNat, L)
decreasing_by
  · exact Prod.Lex.right _ (Nat.lt_succ_self k)
  · exact Prod.Lex.left _ _ (by omega)

theorem refEnum_ne_nil (lo hi : Int) (L : Nat) : refEnum lo hi L ≠ [] := by
  cases L with
  | zero => simp [refEnum]
  | succ k =>
    rw [refEnum]
    intro h
    rcases List.append_eq_nil.mp h with ⟨h1, -⟩
    exact refEnum_ne_nil lo hi k (List.map_eq_nil_iff.mp h1)

theorem refEnum_length_eq (lo hi : Int) (L : Nat) :
    ∀ x ∈ refEnum lo hi L, x.length = L := by
  induction lo, hi, L using refEnum.induct with
  | case1 lo hi => simp [refEnum]
  | case2 lo hi k ih1 ih2 =>
    intro x hx
    rw [refEnum] at hx
    rcases List.mem_append.mp hx with hx | hx
    · rcases List.mem_map.mp hx with ⟨y, hy, rfl⟩
      simp [ih1 y hy]
    · by_cases h : lo < hi
      · rw [dif_pos h] at hx
        exact ih2 h x hx
      · rw [dif_neg h] at hx
        simp at hx

theorem refEnum_bounds (lo hi : Int) (L : Nat) (hlohi : lo ≤ hi) :
    ∀ x ∈ refEnum lo hi L, ∀ v ∈ x, lo ≤ v ∧ v ≤ hi := by
  induction lo, hi, L using refEnum.induct with
  | case1 lo hi => simp [refEnum]
  | case2 lo hi k ih1 ih2 =>
    intro x hx v hv
    rw [refEnum] at hx
    rcases List.mem_append.mp hx with hx | hx
    · rcases List.mem_map.mp hx with ⟨y, hy, rfl⟩
      rcases List.mem_append.mp hv with hv | hv
      · exact ih1 hlohi y hy v hv
      · rcases List.mem_singleton.mp hv with rfl
        exact ⟨le_refl _, hlohi⟩
    · by_cases h : lo < hi
      · rw [dif_pos h] at hx
        have := ih2 h (by omega) x hx v hv
        omega
      · rw [dif_neg h] at hx
        simp at hx

theorem refEnum_length (lo hi : Int) (L : Nat) (hlohi : lo ≤ hi) :
    (refEnum lo hi L).length = (((hi - lo).toNat) + L).choose L := by
  induction lo, hi, L using refEnum.induct with
  | case1 lo hi => simp [refEnum]
  | case2 lo hi k ih1 ih2 =>
    by_cases h : lo < hi
    · rw [refEnum, dif_pos h]
      have h1 := ih1 hlohi
      have h2 := ih2 h (by omega)
      have hn : (hi - (lo + 1)).toNat = (hi - lo).toNat - 1 := by omega
      simp only [List.length_append, List.length_map, h1, h2, hn]
      have he : (hi - lo).toNat + (k + 1) = ((hi - lo).toNat + k) + 1 := by omega
      rw [he, Nat.choose_succ_succ]
      have he2 : (hi - lo).toNat - 1 + (k + 1) = (hi - lo).toNat + k := by omega
      rw [he2]
    · rw [refEnum, dif_neg h, List.append_nil, List.length_map, ih1 hlohi]
      have h0 : (hi - lo).toNat = 0 := by omega
      simp [h0]

theorem refEnum_nodup (lo hi : Int) (L : Nat) : (refEnum lo hi L).Nodup := by
  induction lo, hi, L using refEnum.induct with
  | case1 lo hi => simp [refEnum]
  | case2 lo hi k ih1 ih2 =>
    by_cases h : lo < hi
    · rw [refEnum, dif_pos h, List.nodup_append]
      refine ⟨ih1.map (List.append_left_injective _), ih2 h, ?_⟩
      intro x hx hx'
      rcases List.mem_map.mp hx with ⟨y, _, rfl⟩
      have hmem : lo ∈ y ++ [lo] := List.mem_append.mpr (Or.inr (List.mem_singleton.mpr rfl))
      have := (refEnum_bounds (lo + 1) hi (k + 1) (by omega) _ hx' lo hmem).1
      omega
    · rw [refEnum, dif_neg h, List.append_nil]
      exact ih1.map (List.append_left_injective _)

theorem refEnum_chain (lo hi : Int) (L : Nat) (hlohi : lo ≤ hi) :
    ∀ x ∈ refEnum lo hi L, List.Chain' (· ≥ ·) x := by
  induction lo, hi, L using refEnum.induct with
  | case1 lo hi => simp [refEnum]
  | case2 lo hi k ih1 ih2 =>
    intro x hx
    rw [refEnum] at hx
    rcases List.mem_append.mp hx with hx | hx
    · rcases List.mem_map.mp hx with ⟨y, hy, rfl⟩
      rw [List.chain'_append]
      refine ⟨ih1 hlohi y hy, List.chain'_singleton _, ?_⟩
      intro a ha b hb
      have hb' : b = lo := List.mem_singleton.mp (List.mem_of_mem_head? hb)
      have ha' : a ∈ y := List.mem_of_mem_getLast? ha
      have hav := (refEnum_bounds lo hi k hlohi y hy a ha').1
      omega
    · by_cases h : lo < hi
      · rw [dif_pos h] at hx
        exact ih2 h (by omega) x hx
      · rw [dif_neg h] at hx
        simp at hx

theorem refEnum_self (lo : Int) (L : Nat) : refEnum lo lo L = [List.replicate L lo] := by
  induction L with
  | zero => simp [refEnum]
  | succ k ih =>
    rw [refEnum, dif_neg (lt_irrefl lo), List.append_nil, ih]
    simp [List.replicate_succ']

/-! ### The generator's loop produces exactly `refEnum` -/

theorem exists_lt_of_ne_replicate {hi : Int} {l : List Int} (hle : ∀ v ∈ l, v ≤ hi)
    (hne : l ≠ List.replicate l.length hi) : ∃ v ∈ l, v < hi := by
  by_contra h
  push_neg at h
  exact hne (List.eq_replicate_length.mpr fun b hb => le_antisymm (hle b hb) (h b hb))

theorem incStep_ne_nil {hi : Int} :
    ∀ {l : List Int}, (∃ v ∈ l, v < hi) → incStep hi l ≠ [] := by
  intro l hex
  induction l with
  | nil => simp at hex
  | cons x rest ih =>
    rw [incStep]
    by_cases hx : hi < x + 1
    · rw [if_pos hx]
      have hex' : ∃ v ∈ rest, v < hi := by
        rcases hex with ⟨v, hv, hvlt⟩
        rcases List.mem_cons.mp hv with rfl | hv
        · omega
        · exact ⟨v, hv, hvlt⟩
      rcases hr : incStep hi rest with _ | ⟨y, rest'⟩
      · exact absurd hr (ih hex')
      · simp
    · rw [if_neg hx]
      simp

theorem incStep_append {hi : Int} :
    ∀ (l : List Int) (d : Int), (∃ v ∈ l, v < hi) →
      incStep hi (l ++ [d]) = incStep hi l ++ [d] := by
  intro l d hex
  induction l with
  | nil => simp at hex
  | cons x rest ih =>
    rw [List.cons_append, incStep, incStep]
    by_cases hx : hi < x + 1
    · rw [if_pos hx, if_pos hx]
      have hex' : ∃ v ∈ rest, v < hi := by
        rcases hex with ⟨v, hv, hvlt⟩
        rcases List.mem_cons.mp hv with rfl | hv
        · omega
        · exact ⟨v, hv, hvlt⟩
      rw [ih hex']
      rcases hr : incStep hi rest with _ | ⟨y, rest'⟩
      · exact absurd hr (incStep_ne_nil hex')
      · simp
    · rw [if_neg hx, if_neg hx]
      simp

theorem incStep_repTop {hi : Int} (k : Nat) (d : Int) (hd : d < hi) :
    incStep hi (List.replicate k hi ++ [d]) = List.replicate (k + 1) (d + 1) := by
  induction k with
  | zero =>
    simp only [List.replicate_zero, List.nil_append, List.replicate_one]
    rw [incStep]
    rw [if_neg (by omega)]
    simp
  | succ m ih =>
    rw [List.replicate_succ, List.cons_append, incStep, if_pos (by omega), ih]
    simp [List.replicate_succ]

theorem incStep_le {hi : Int} :
    ∀ {l : List Int}, (∃ v ∈ l, v < hi) → (∀ v ∈ l, v ≤ hi) →
      ∀ v ∈ incStep hi l, v ≤ hi := by
  intro l hex hle
  induction l with
  | nil => simp at hex
  | cons x rest ih =>
    rw [incStep]
    by_cases hx : hi < x + 1
    · rw [if_pos hx]
      have hex' : ∃ v ∈ rest, v < hi := by
        rcases hex with ⟨v, hv, hvlt⟩
        rcases List.mem_cons.mp hv with rfl | hv
        · omega
        · exact ⟨v, hv, hvlt⟩
      have hle' : ∀ v ∈ rest, v ≤ hi := fun v hv => hle v (List.mem_cons_of_mem _ hv)
      have ihr := ih hex' hle'
      rcases hr : incStep hi rest with _ | ⟨y, rest'⟩
      · exact absurd hr (incStep_ne_nil hex')
      · rw [hr] at ihr
        intro v hv
        rcases List.mem_cons.mp hv with rfl | hv
        · exact ihr v (List.mem_cons_self _ _)
        · exact ihr v hv
    · rw [if_neg hx]
      intro v hv
      rcases List.mem_cons.mp hv with rfl | hv
      · omega
      · exact hle v (List.mem_cons_of_mem _ hv)

theorem incStep_length {hi : Int} :
    ∀ {l : List Int}, (∃ v ∈ l, v < hi) → (incStep hi l).length = l.length := by
  intro l hex
  induction l with
  | nil => simp at hex
  | cons x rest ih =>
    rw [incStep]
    by_cases hx : hi < x + 1
    · rw [if_pos hx]
      have hex' : ∃ v ∈ rest, v < hi := by
        rcases hex with ⟨v, hv, hvlt⟩
        rcases List.mem_cons.mp hv with rfl | hv
        · omega
        · exact ⟨v, hv, hvlt⟩
      have ihr := ih hex'
      rcases hr : incStep hi rest with _ | ⟨y, rest'⟩
      · exact absurd hr (incStep_ne_nil hex')
      · rw [hr] at ihr
        simp at ihr ⊢
        omega
    · rw [if_neg hx]
      simp

theorem enumAux_mono (hi : Int) (top : List Int) :
    ∀ (f : Nat) (cur : List Int) (P : List (List Int)) (f' : Nat),
      enumAux hi top f cur = some P → f ≤ f' → enumAux hi top f' cur = some P := by
  intro f
  induction f with
  | zero => intro cur P f' h _; simp [enumAux] at h
  | succ g ih =>
    intro cur P f' h hf
    obtain ⟨g', rfl⟩ : ∃ g', f' = g' + 1 := ⟨f' - 1, by omega⟩
    rw [enumAux] at h ⊢
    by_cases htop : cur = top
    · rw [if_pos htop] at h ⊢
      exact h
    · rw [if_neg htop] at h ⊢
      rcases Option.map_eq_some'.mp h with ⟨P', hP', rfl⟩
      rw [ih _ _ _ hP' (by omega)]
      rfl

theorem enumAux_append_top (hi : Int) (k : Nat) :
    ∀ (f : Nat) (cur : List Int) (P : List (List Int)),
      (∀ v ∈ cur, v ≤ hi) → cur.length = k →
      enumAux hi (List.replicate k hi) f cur = some P →
      enumAux hi (List.replicate (k + 1) hi) f (cur ++ [hi])
        = some (P.map (fun x => x ++ [hi])) := by
  intro f
  induction f with
  | zero => intro cur P _ _ h; simp [enumAux] at h
  | succ g ih =>
    intro cur P hle hlen h
    rw [enumAux] at h ⊢
    by_cases htop : cur = List.replicate k hi
    · rw [if_pos htop] at h
      obtain rfl : [cur] = P := Option.some.inj h
      have h2 : cur ++ [hi] = List.replicate (k + 1) hi := by
        rw [htop, List.replicate_succ']
      rw [if_pos h2]
      simp
    · rw [if_neg htop] at h
      have hex : ∃ v ∈ cur, v < hi :=
        exists_lt_of_ne_replicate hle (by rw [hlen]; exact htop)
      have hne2 : cur ++ [hi] ≠ List.replicate (k + 1) hi := by
        rw [List.replicate_succ']
        intro heq
        exact htop (List.append_left_injective _ heq)
      rw [if_neg hne2]
      rcases Option.map_eq_some'.mp h with ⟨P', hP', rfl⟩
      rw [incStep_append _ _ hex]
      rw [ih (incStep hi cur) P' (incStep_le hex hle)
        (by rw [incStep_length hex, hlen]) hP']
      simp

theorem enumAux_append_lt (hi : Int) (k : Nat) (d : Int) (hd : d < hi) :
    ∀ (f₁ f₂ : Nat) (cur : List Int) (P Q : List (List Int)),
      (∀ v ∈ cur, v ≤ hi) → cur.length = k →
      enumAux hi (List.replicate k hi) f₁ cur = some P →
      enumAux hi (List.replicate (k + 1) hi) f₂ (List.replicate (k + 1) (d + 1)) = some Q →
      enumAux hi (List.replicate (k + 1) hi) (f₁ + f₂) (cur ++ [d])
        = some (P.map (fun x => x ++ [d]) ++ Q) := by
  intro f₁
  induction f₁ with
  | zero => intro f₂ cur P Q _ _ h _; simp [enumAux] at h
  | succ g ih =>
    intro f₂ cur P Q hle hlen h hQ
    have hne : cur ++ [d] ≠ List.replicate (k + 1) hi := by
      intro heq
      have h1 : (cur ++ [d]).getLast? = some d := List.getLast?_concat _
      rw [heq, List.replicate_succ', List.getLast?_concat] at h1
      injection h1 with h2
      omega
    have hstep : g + 1 + f₂ = (g + f₂) + 1 := by omega
    rw [hstep, enumAux, if_neg hne]
    rw [enumAux] at h
    by_cases htop : cur = List.replicate k hi
    · rw [if_pos htop] at h
      obtain rfl : [cur] = P := Option.some.inj h
      rw [htop, incStep_repTop k d hd]
      rw [enumAux_mono hi _ f₂ _ Q (g + f₂) hQ (by omega)]
      simp [htop]
    · rw [if_neg htop] at h
      have hex : ∃ v ∈ cur, v < hi :=
        exists_lt_of_ne_replicate hle (by rw [hlen]; exact htop)
      rcases Option.map_eq_some'.mp h with ⟨P', hP', rfl⟩
      rw [incStep_append _ _ hex]
      rw [ih f₂ (incStep hi cur) P' Q (incStep_le hex hle)
        (by rw [incStep_length hex, hlen]) hP' hQ]
      simp

theorem enumAux_refEnum (lo hi : Int) (L : Nat) (hlohi : lo ≤ hi) :
    enumAux hi (List.replicate L hi) ((refEnum lo hi L).length) (List.replicate L lo)
      = some (refEnum lo hi L) := by
  induction lo, hi, L using refEnum.induct with
  | case1 lo hi => simp [refEnum, enumAux]
  | case2 lo hi k ih1 ih2 =>
    have hcur : ∀ v ∈ List.replicate k lo, v ≤ hi := by
      intro v hv
      rw [List.eq_of_mem_replicate hv]
      exact hlohi
    by_cases h : lo < hi
    · rw [refEnum, dif_pos h]
      have h1 := ih1 hlohi
      have h2 := ih2 h (by omega)
      rw [List.length_append, List.length_map, List.replicate_succ' k lo]
      exact enumAux_append_lt hi k lo h ((refEnum lo hi k).length)
        ((refEnum (lo + 1) hi (k + 1)).length) (List.replicate k lo)
        (refEnum lo hi k) (refEnum (lo + 1) hi (k + 1)) hcur
        (List.length_replicate k lo) h1 h2
    · have hlo : lo = hi := by omega
      rw [refEnum, dif_neg h, List.append_nil, List.length_map, List.replicate_succ' k lo]
      subst hlo
      exact enumAux_append_top lo k ((refEnum lo lo k).length) (List.replicate k lo)
        (refEnum lo lo k) hcur (List.length_replicate k lo) (ih1 hlohi)

theorem refEnum_length_le (lo hi : Int) (L : Nat) :
    (refEnum lo hi L).length ≤ ((hi - lo).toNat + 1) ^ L := by
  induction lo, hi, L using refEnum.induct with
  | case1 lo hi => simp [refEnum]
  | case2 lo hi k ih1 ih2 =>
    by_cases h : lo < hi
    · rw [refEnum, dif_pos h, List.length_append, List.length_map]
      have h2 := ih2 h
      have hn : (hi - (lo + 1)).toNat = (hi - lo).toNat - 1 := by omega
      rw [hn] at h2
      have hn1 : 1 ≤ (hi - lo).toNat := by omega
      have hstep : ((hi - lo).toNat - 1 + 1) ^ (k + 1) ≤ (hi - lo).toNat * ((hi - lo).toNat + 1) ^ k := by
        have he : (hi - lo).toNat - 1 + 1 = (hi - lo).toNat := by omega
        rw [he, pow_succ]
        rw [mul_comm]
        exact Nat.mul_le_mul_left _ (Nat.pow_le_pow_left (by omega) k)
      calc (refEnum lo hi k).length + (refEnum (lo + 1) hi (k + 1)).length
          ≤ ((hi - lo).toNat + 1) ^ k + (hi - lo).toNat * ((hi - lo).toNat + 1) ^ k :=
            Nat.add_le_add ih1 (le_trans h2 hstep)
        _ = ((hi - lo).toNat + 1) ^ (k + 1) := by ring
    · rw [refEnum, dif_neg h, List.append_nil, List.length_map]
      exact le_trans ih1 (Nat.pow_le_pow_right (by omega) (by omega))

theorem unique_enum_ok (lo hi : Int) (L : Nat) (hlohi : lo ≤ hi) :
    unique_enum (.int lo) (.int hi) L = .ok (refEnum lo hi L) := by
  have hrun : enumAux hi (List.replicate L hi) (((hi - lo).toNat + 1) ^ L) (List.replicate L lo)
      = some (refEnum lo hi L) :=
    enumAux_mono hi (List.replicate L hi) _ _ _ _ (enumAux_refEnum lo hi L hlohi)
      (refEnum_length_le lo hi L)
  unfold unique_enum
  rw [if_neg (by simp only [PyNum.toRat]; push_neg; exact_mod_cast hlohi)]
  simp [hrun]

/-! ### Python's `round` on exact rationals, and the bound formulas -/

/-- Python's built-in `round` on an exact rational value: round to the nearest
integer, resolving `.5` ties to the even neighbour (banker's rounding). -/
def roundHalfEven (q : ℚ) : ℤ :=
  if Int.fract q = 1 / 2 then (if ⌊q⌋ % 2 = 0 then ⌊q⌋ else ⌊q⌋ + 1) else round q

theorem floor_natCast_div_ten (t : Nat) : ⌊(t : ℚ) / 10⌋ = ((t / 10 : ℕ) : ℤ) := by
  have h := Rat.floor_natCast_div_natCast t 10
  have h10 : ((10 : ℕ) : ℚ) = 10 := by norm_num
  rw [h10] at h
  rw [h]
  omega

theorem pyHalfRound_eq (r : Nat) :
    (pyHalfRound r : ℤ) = roundHalfEven ((r : ℚ) * (1 / 2)) := by
  by_cases h2 : r % 2 = 0
  · obtain ⟨m, hm⟩ : ∃ m, r = 2 * m := ⟨r / 2, by omega⟩
    have hval : (r : ℚ) * (1 / 2) = ((m : ℤ) : ℚ) := by
      rw [hm]
      push_cast
      ring
    rw [roundHalfEven, hval, Int.fract_intCast,
      if_neg (show ¬((0:ℚ) = 1/2) from by norm_num), round_intCast]
    rw [pyHalfRound, if_pos h2]
    omega
  · obtain ⟨m, hm⟩ : ∃ m, r = 2 * m + 1 := ⟨r / 2, by omega⟩
    have hval : (r : ℚ) * (1 / 2) = ((m : ℤ) : ℚ) + 1 / 2 := by
      rw [hm]
      push_cast
      ring
    have hfract : Int.fract (((m : ℤ) : ℚ) + 1 / 2) = 1 / 2 := by
      rw [Int.fract_int_add]
      exact Int.fract_eq_self.mpr (by norm_num)
    have hfloor : ⌊((m : ℤ) : ℚ) + 1 / 2⌋ = (m : ℤ) := by
      rw [Int.floor_int_add]
      norm_num
    rw [roundHalfEven, if_pos (hval ▸ hfract), hval, hfloor]
    rw [pyHalfRound, if_neg h2]
    have hr2 : r / 2 = m := by omega
    rw [hr2]
    by_cases hq : m % 2 = 0
    · rw [if_pos hq, if_pos (show (m:ℤ) % 2 = 0 from by omega)]
    · rw [if_neg hq, if_neg (show ¬((m:ℤ) % 2 = 0) from by omega)]
      push_cast
      ring

theorem pyRound17_eq (r : Nat) :
    (pyRound17 r : ℤ) = roundHalfEven ((r : ℚ) * (17 / 10)) := by
  obtain ⟨q, s, hs, hv⟩ : ∃ q s, s < 10 ∧ 17 * r = 10 * q + s :=
    ⟨17 * r / 10, 17 * r % 10, Nat.mod_lt _ (by norm_num), by omega⟩
  have hvq : (17 : ℚ) * (r : ℚ) = 10 * (q : ℚ) + (s : ℚ) := by exact_mod_cast hv
  have hval : (r : ℚ) * (17 / 10) = ((q : ℤ) : ℚ) + (s : ℚ) / 10 := by
    push_cast
    field_simp
    linarith
  have hs0 : (0:ℚ) ≤ (s : ℚ) / 10 := by positivity
  have hs1 : (s : ℚ) / 10 < 1 := by
    rw [div_lt_one (by norm_num : (0:ℚ) < 10)]
    exact_mod_cast hs
  have hfract : Int.fract (((q : ℤ) : ℚ) + (s : ℚ) / 10) = (s : ℚ) / 10 := by
    rw [Int.fract_int_add]
    exact Int.fract_eq_self.mpr ⟨hs0, hs1⟩
  have hfloor : ⌊((q : ℤ) : ℚ) + (s : ℚ) / 10⌋ = (q : ℤ) := by
    rw [Int.floor_int_add, Int.floor_eq_zero_iff.mpr ⟨hs0, hs1⟩, add_zero]
  have hq : 17 * r / 10 = q := by omega
  have hsm : 17 * r % 10 = s := by omega
  rw [roundHalfEven, hval, hfract, hfloor, pyRound17, hq, hsm]
  by_cases h5 : s = 5
  · rw [if_pos h5, if_pos (show (s : ℚ) / 10 = 1/2 from by rw [h5]; norm_num)]
    by_cases hq2 : q % 2 = 0
    · rw [if_pos hq2, if_pos (show (q:ℤ) % 2 = 0 from by omega)]
    · rw [if_neg hq2, if_neg (show ¬((q:ℤ) % 2 = 0) from by omega)]
      push_cast
      ring
  · have hne : ¬((s : ℚ) / 10 = 1 / 2) := by
      intro hcon
      apply h5
      have h5q : (s : ℚ) = 5 := by linarith
      exact_mod_cast h5q
    rw [if_neg h5, if_neg hne]
    rw [round_eq]
    rw [show ((q : ℤ) : ℚ) + (s : ℚ) / 10 + 1 / 2 = ((q : ℤ) : ℚ) + ((s + 5 : ℕ) : ℚ) / 10 from by
      push_cast; ring]
    rw [Int.floor_int_add, floor_natCast_div_ten]
    omega

/-! ### The cube-root search -/

theorem cubeRootAux_spec (n : Nat) :
    ∀ (fuel r0 : Nat), 8 * n < (2 * (r0 + fuel) + 1) ^ 3 →
      (∀ j < r0, (2 * j + 1) ^ 3 ≤ 8 * n) →
      8 * n < (2 * cubeRootAux n fuel r0 + 1) ^ 3 ∧
        ∀ j < cubeRootAux n fuel r0, (2 * j + 1) ^ 3 ≤ 8 * n := by
  intro fuel
  induction fuel with
  | zero =>
    intro r0 hub hlow
    rw [cubeRootAux]
    exact ⟨by simpa using hub, hlow⟩
  | succ f ih =>
    intro r0 hub hlow
    rw [cubeRootAux]
    by_cases h : 8 * n < (2 * r0 + 1) ^ 3
    · rw [if_pos h]
      exact ⟨h, hlow⟩
    · rw [if_neg h]
      apply ih (r0 + 1)
      · rw [show r0 + 1 + f = r0 + (f + 1) from by omega]
        exact hub
      · intro j hj
        rcases Nat.lt_succ_iff_lt_or_eq.mp hj with hj | rfl
        · exact hlow j hj
        · exact not_lt.mp h

theorem droot_spec (n : Nat) :
    8 * n < (2 * droot n + 1) ^ 3 ∧ ∀ j < droot n, (2 * j + 1) ^ 3 ≤ 8 * n := by
  unfold droot
  apply cubeRootAux_spec
  · have hexp : (2 * (0 + (n + 1)) + 1) ^ 3 = 8 * n ^ 3 + 36 * n ^ 2 + (54 * n + 27) := by ring
    rw [hexp]
    calc 8 * n < 54 * n + 27 := by omega
      _ ≤ 8 * n ^ 3 + 36 * n ^ 2 + (54 * n + 27) := Nat.le_add_left _ _
  · intro j hj
    exact absurd hj (Nat.not_lt_zero j)

theorem droot_pos (n : Nat) (hn : 1 ≤ n) : 1 ≤ droot n := by
  by_contra h
  have h0 : droot n = 0 := by omega
  have hub := (droot_spec n).1
  rw [h0] at hub
  norm_num at hub
  omega

theorem droot_char (n : Nat) (hn : 1 ≤ n) :
    (2 * (droot n : ℤ) - 1) ^ 3 < 8 * (n : ℤ) ∧ 8 * (n : ℤ) < (2 * (droot n : ℤ) + 1) ^ 3 := by
  have hs := droot_spec n
  have hpos := droot_pos n hn
  constructor
  · have hlow := hs.2 (droot n - 1) (by omega)
    rw [show 2 * (droot n - 1) + 1 = 2 * droot n - 1 from by omega] at hlow
    have hodd : (2 * droot n - 1) % 2 = 1 := by omega
    have hne : (2 * droot n - 1) ^ 3 ≠ 8 * n := by
      intro heq
      have h1 : (2 * droot n - 1) ^ 3 % 2 = 1 := by
        rw [Nat.pow_mod, hodd]
      rw [heq] at h1
      omega
    have hlt : (2 * droot n - 1) ^ 3 < 8 * n := lt_of_le_of_ne hlow hne
    have hc : ((2 * droot n - 1 : ℕ) : ℤ) = 2 * (droot n : ℤ) - 1 := by omega
    calc (2 * (droot n : ℤ) - 1) ^ 3 = ((2 * droot n - 1 : ℕ) : ℤ) ^ 3 := by rw [hc]
      _ < 8 * (n : ℤ) := by exact_mod_cast hlt
  · exact_mod_cast hs.1

/-! ### Search-window and search-loop invariants of `decompose` -/

theorem dlower_nonneg (n : Nat) : 0 ≤ dlower n := by
  unfold dlower
  by_cases h : droot n ≤ 5
  · rw [if_pos h]
  · rw [if_neg h]
    apply le_min
    · exact Int.natCast_nonneg _
    · omega

theorem dlower_le_dupper (n : Nat) : dlower n ≤ dupper n := by
  unfold dlower dupper
  by_cases h : droot n ≤ 5
  · rw [if_pos h]
    calc (0:ℤ) ≤ (droot n : ℤ) + 5 := by positivity
      _ ≤ max ((pyRound17 (droot n) : ℤ)) ((droot n : ℤ) + 5) := le_max_right _ _
  · rw [if_neg h]
    calc min ((pyHalfRound (droot n) : ℤ)) ((droot n : ℤ) - 5)
        ≤ (droot n : ℤ) - 5 := min_le_right _ _
      _ ≤ (droot n : ℤ) + 5 := by omega
      _ ≤ max ((pyRound17 (droot n) : ℤ)) ((droot n : ℤ) + 5) := le_max_right _ _

theorem decompose_eq_fold (n : Nat) :
    decompose n
      = some ((refEnum (dlower n) (dupper n) 3).foldl (searchStep (n : ℤ)) (searchInit n)) := by
  unfold decompose
  rw [unique_enum_ok _ _ 3 (dlower_le_dupper n)]

theorem searchStep_snd_le (number : Int) (b : List Int × Int) (f : List Int) :
    (searchStep number b f).2 ≤ b.2 := by
  show (if b.2 < |number - tripletProd f| then b
      else if |number - tripletProd f| < b.2 then (f, |number - tripletProd f|)
      else if cubicity f < cubicity b.1 then (f, b.2) else b).2 ≤ b.2
  split_ifs with h1 h2 h3
  · exact le_refl _
  · exact le_of_lt h2
  · exact le_refl _
  · exact le_refl _

theorem foldl_searchStep_snd_le (number : Int) :
    ∀ (l : List (List Int)) (b : List Int × Int),
      (l.foldl (searchStep number) b).2 ≤ b.2 := by
  intro l
  induction l with
  | nil => intro b; exact le_refl _
  | cons x xs ih =>
    intro b
    rw [List.foldl_cons]
    exact le_trans (ih _) (searchStep_snd_le number b x)

theorem searchStep_fst_cases (number : Int) (b : List Int × Int) (f : List Int) :
    (searchStep number b f).1 = b.1 ∨ (searchStep number b f).1 = f := by
  show (if b.2 < |number - tripletProd f| then b
      else if |number - tripletProd f| < b.2 then (f, |number - tripletProd f|)
      else if cubicity f < cubicity b.1 then (f, b.2) else b).1 = b.1
    ∨ (if b.2 < |number - tripletProd f| then b
      else if |number - tripletProd f| < b.2 then (f, |number - tripletProd f|)
      else if cubicity f < cubicity b.1 then (f, b.2) else b).1 = f
  split_ifs with h1 h2 h3
  · exact Or.inl rfl
  · exact Or.inr rfl
  · exact Or.inr rfl
  · exact Or.inl rfl

theorem foldl_searchStep_bounds (number lo hi : Int) :
    ∀ (l : List (List Int)) (b : List Int × Int),
      (∀ v ∈ b.1, lo ≤ v ∧ v ≤ hi) → (∀ x ∈ l, ∀ v ∈ x, lo ≤ v ∧ v ≤ hi) →
      ∀ v ∈ (l.foldl (searchStep number) b).1, lo ≤ v ∧ v ≤ hi := by
  intro l
  induction l with
  | nil => intro b hb _; exact hb
  | cons x xs ih =>
    intro b hb hl
    rw [List.foldl_cons]
    apply ih
    · rcases searchStep_fst_cases number b x with hc | hc
      · rw [hc]; exact hb
      · rw [hc]; exact hl x (List.mem_cons_self _ _)
    · intro y hy
      exact hl y (List.mem_cons_of_mem _ hy)

/-! ### Claim theorems -/

/-- Claim C1: `decompose 27` returns the triplet `[3,3,3]` with error `0`, and
`decompose 8` returns `[2,2,2]` with error `0`.  For `8` the search window is
`[0, 7]` and contains the competing zero-error candidate `[4,2,1]`, which the
cubicity tie-break ranks strictly worse than `[2,2,2]`. -/
theorem decompose_27_8_exact :
    decompose 27 = some ([3, 3, 3], 0) ∧ decompose 8 = some ([2, 2, 2], 0)
      ∧ tripletProd [4, 2, 1] = 8
      ∧ (∀ v ∈ ([4, 2, 1] : List Int), dlower 8 ≤ v ∧ v ≤ dupper 8)
      ∧ cubicity [2, 2, 2] < cubicity [4, 2, 1] := by
  refine ⟨?_, ?_, by decide, by decide, ?_⟩
  · rw [decompose_eq_decomposeI]
    decide
  · rw [decompose_eq_decomposeI]
    decide
  · rw [cubicity_lt_iff]
    decide

/-- Claim C2: for every `number` in `[1, 10_000_000]`, `decompose number`
returns a triplet all of whose components lie in the computed `[lower, upper]`
window, with error at most `|number - lower^3|` (the error of the initial best
record `(lower, lower, lower)`), and one step of the search loop never
increases the best record's error. -/
theorem decompose_search_invariants (n : Nat) (h1 : 1 ≤ n) (h2 : n ≤ 10000000) :
    ∃ t e, decompose n = some (t, e)
      ∧ (∀ v ∈ t, dlower n ≤ v ∧ v ≤ dupper n)
      ∧ e ≤ |(n : ℤ) - dlower n ^ 3|
      ∧ ∀ (b : List Int × Int) (f : List Int), (searchStep (n : ℤ) b f).2 ≤ b.2 := by
  refine ⟨((refEnum (dlower n) (dupper n) 3).foldl (searchStep (n : ℤ)) (searchInit n)).1,
    ((refEnum (dlower n) (dupper n) 3).foldl (searchStep (n : ℤ)) (searchInit n)).2,
    ?_, ?_, ?_, fun b f => searchStep_snd_le _ b f⟩
  · rw [decompose_eq_fold n]
  · apply foldl_searchStep_bounds
    · intro v hv
      have hv' : v = dlower n := by
        simp only [searchInit] at hv
        rcases List.mem_cons.mp hv with h | h
        · exact h
        · rcases List.mem_cons.mp h with h | h
          · exact h
          · simpa using h
      rw [hv']
      exact ⟨le_refl _, dlower_le_dupper n⟩
    · exact refEnum_bounds _ _ 3 (dlower_le_dupper n)
  · exact foldl_searchStep_snd_le (n : ℤ) (refEnum (dlower n) (dupper n) 3) (searchInit n)

theorem decompose_search_invariants_witness :
    ((1 ≤ 1 ∧ 1 ≤ 10000000) ∧
    ∃ t e, decompose 1 = some (t, e)
      ∧ (∀ v ∈ t, dlower 1 ≤ v ∧ v ≤ dupper 1)
      ∧ e ≤ |((1 : ℕ) : ℤ) - dlower 1 ^ 3|
      ∧ ∀ (b : List Int × Int) (f : List Int), (searchStep ((1 : ℕ) : ℤ) b f).2 ≤ b.2) :=
  ⟨⟨le_refl 1, by norm_num⟩, decompose_search_invariants 1 (le_refl 1) (by norm_num)⟩

/-- Claim C3: for all integers `lo ≤ hi` and positive length `L`,
`unique_enum lo hi L` yields exactly `C(hi - lo + L, L)` distinct sequences,
every entry of every sequence lying in `[lo, hi]`; when `lo = hi` it yields
exactly the one sequence `replicate L lo`. -/
theorem unique_enum_count_distinct (lo hi : Int) (L : Nat) (hlohi : lo ≤ hi) (hL : 0 < L) :
    ∃ l, unique_enum (.int lo) (.int hi) L = .ok l
      ∧ l.length = ((hi - lo).toNat + L).choose L
      ∧ l.Nodup
      ∧ (∀ x ∈ l, ∀ v ∈ x, lo ≤ v ∧ v ≤ hi)
      ∧ (lo = hi → l = [List.replicate L lo]) :=
  ⟨refEnum lo hi L, unique_enum_ok lo hi L hlohi, refEnum_length lo hi L hlohi,
    refEnum_nodup lo hi L, refEnum_bounds lo hi L hlohi,
    fun h => by subst h; exact refEnum_self lo L⟩

theorem unique_enum_count_distinct_witness :
    (((1 : ℤ) ≤ 2 ∧ 0 < 2) ∧
    ∃ l, unique_enum (.int 1) (.int 2) 2 = .ok l
      ∧ l.length = (((2 : ℤ) - 1).toNat + 2).choose 2
      ∧ l.Nodup
      ∧ (∀ x ∈ l, ∀ v ∈ x, (1 : ℤ) ≤ v ∧ v ≤ 2)
      ∧ ((1 : ℤ) = 2 → l = [List.replicate 2 (1 : ℤ)])) :=
  ⟨⟨by norm_num, by norm_num⟩, unique_enum_count_distinct 1 2 2 (by norm_num) (by norm_num)⟩

/-- Claim C4: `unique_enum 1 2` with length 2 yields exactly
`[1,1], [2,1], [2,2]` in that order, and with length 3 exactly
`[1,1,1], [2,1,1], [2,2,1], [2,2,2]` in that order. -/
theorem unique_enum_order_examples :
    unique_enum (.int 1) (.int 2) 2 = .ok [[1, 1], [2, 1], [2, 2]]
      ∧ unique_enum (.int 1) (.int 2) 3
        = .ok [[1, 1, 1], [2, 1, 1], [2, 2, 1], [2, 2, 2]] :=
  ⟨by decide, by decide⟩

/-- Claim C5 counterexample: the claim that every yielded sequence is
non-decreasing fails: `unique_enum 1 2` (length 2) yields `[2, 1]`, whose
first entry exceeds its second. -/
theorem unique_enum_yields_non_monotone :
    unique_enum (.int 1) (.int 2) 2 = .ok [[1, 1], [2, 1], [2, 2]]
      ∧ ¬ (∀ x ∈ [[1, 1], [2, 1], [2, 2]], List.Chain' (· ≤ ·) x) := by
  refine ⟨by decide, ?_⟩
  intro hall
  have h21 := hall [2, 1] (by simp)
  rw [List.chain'_cons] at h21
  exact absurd h21.1 (by norm_num)

/-- Claim C5 (amended): every sequence yielded by `unique_enum lo hi L` with
`lo ≤ hi` is non-increasing — each element is greater than or equal to the
next element (the odometer increments the head fastest, so values decrease
from head to tail). -/
theorem unique_enum_nonincreasing (lo hi : Int) (L : Nat) (hlohi : lo ≤ hi)
    (l : List (List Int)) (h : unique_enum (.int lo) (.int hi) L = .ok l) :
    ∀ x ∈ l, List.Chain' (· ≥ ·) x := by
  rw [unique_enum_ok lo hi L hlohi] at h
  injection h with h
  rw [← h]
  exact refEnum_chain lo hi L hlohi

theorem unique_enum_nonincreasing_witness :
    (((1 : ℤ) ≤ 2 ∧ unique_enum (.int 1) (.int 2) 2 = .ok [[1, 1], [2, 1], [2, 2]])
      ∧ List.Chain' (· ≥ ·) ([2, 1] : List Int)) :=
  ⟨⟨by norm_num, by decide⟩,
    unique_enum_nonincreasing 1 2 2 (by norm_num) [[1, 1], [2, 1], [2, 2]] (by decide)
      [2, 1] (by decide)⟩

/-- Claim C6 counterexample: a call with non-integer bounds where
lower > upper fails with the invalid-argument (bound) error, not the type
error, because the source checks the bound order first. -/
theorem unique_enum_float_bound_error :
    PyNum.isInt (.float (5 / 2)) = false ∧ PyNum.isInt (.float 1) = false
      ∧ unique_enum (.float (5 / 2)) (.float 1) 3 = .error "Lower bound exceeds upper bound"
      ∧ "Lower bound exceeds upper bound" ≠ "Lower and upper bound must be integers" := by
  refine ⟨rfl, rfl, ?_, by decide⟩
  unfold unique_enum
  rw [if_pos (show PyNum.toRat (.float 1) < PyNum.toRat (.float (5 / 2)) from by
    norm_num [PyNum.toRat])]

/-- Claim C6 (amended): a call with lower > upper fails with the
invalid-argument error (regardless of the bounds' types, since that check runs
first); a call with lower ≤ upper and a non-integer bound fails with the type
error; in both cases the generator fails before yielding anything. -/
theorem unique_enum_error_precedence (lb ub : PyNum) (L : Nat) :
    (ub.toRat < lb.toRat → unique_enum lb ub L = .error "Lower bound exceeds upper bound")
      ∧ (lb.toRat ≤ ub.toRat → (lb.isInt = false ∨ ub.isInt = false) →
          unique_enum lb ub L = .error "Lower and upper bound must be integers") := by
  constructor
  · intro h
    unfold unique_enum
    rw [if_pos h]
  · intro hle hint
    unfold unique_enum
    rw [if_neg (not_lt.mpr hle)]
    cases lb with
    | int a =>
      cases ub with
      | int b => simp [PyNum.isInt] at hint
      | float q => rfl
    | float q => cases ub <;> rfl

theorem unique_enum_error_precedence_witness :
    ((PyNum.toRat (.int 1) < PyNum.toRat (.int 2)
        ∧ unique_enum (.int 2) (.int 1) 3 = .error "Lower bound exceeds upper bound")
      ∧ (PyNum.toRat (.float (5 / 2)) ≤ PyNum.toRat (.float 3)
        ∧ unique_enum (.float (5 / 2)) (.float 3) 3
          = .error "Lower and upper bound must be integers")) :=
  ⟨⟨by norm_num [PyNum.toRat],
      (unique_enum_error_precedence (.int 2) (.int 1) 3).1 (by norm_num [PyNum.toRat])⟩,
    ⟨by norm_num [PyNum.toRat],
      (unique_enum_error_precedence (.float (5 / 2)) (.float 3) 3).2
        (by norm_num [PyNum.toRat]) (Or.inl rfl)⟩⟩

/-- Claim C7: for every 3-element triplet with mean `m = (t0 + t1 + t2) / 3`,
`cubicity` equals `|m - t0| + |m - t2| + |m - t2|` (the element at index 1 is
omitted and index 2 is counted twice), it is non-negative, `cubicity [5,5,5]`
is `0`, and `cubicity [1,5,9] > cubicity [4,5,6]`. -/
theorem cubicity_formula_and_examples :
    (∀ a b c : Int, cubicity [a, b, c]
        = |((a : ℚ) + b + c) / 3 - (a : ℚ)| + |((a : ℚ) + b + c) / 3 - (c : ℚ)|
          + |((a : ℚ) + b + c) / 3 - (c : ℚ)|
      ∧ 0 ≤ cubicity [a, b, c])
      ∧ cubicity [5, 5, 5] = 0 ∧ cubicity [4, 5, 6] < cubicity [1, 5, 9] := by
  refine ⟨fun a b c => ⟨?_, ?_⟩, ?_, ?_⟩
  · rw [cubicity]
    simp only [List.sum_cons, List.sum_nil, add_zero]
    push_cast
    ring_nf
  · rw [cubicity]
    positivity
  · rw [cubicity_eq_cubicityI_div, show cubicityI [5, 5, 5] = 0 from by decide]
    norm_num
  · rw [cubicity_lt_iff]
    decide

/-- Claim C8: for every positive `number`, the search bounds of `decompose`
are: `root` is the integer nearest the real cube root of `number` (expressed
by `(2 root - 1)^3 < 8 number < (2 root + 1)^3`; Python's float `round` of
`number ** (1/3)` coincides with this for the whole claimed range);
`lower = 0` when `root ≤ 5` and otherwise
`min (round (root * 0.5)) (root - 5)`; and
`upper = max (round (root * 1.7)) (root + 5)`, where `round` is Python's
half-to-even rounding, modelled exactly on rationals by `roundHalfEven`. -/
theorem decompose_bounds_formula (n : Nat) (hn : 1 ≤ n) :
    ((2 * (droot n : ℤ) - 1) ^ 3 < 8 * (n : ℤ) ∧ 8 * (n : ℤ) < (2 * (droot n : ℤ) + 1) ^ 3)
      ∧ dlower n = (if droot n ≤ 5 then 0
          else min (roundHalfEven ((droot n : ℚ) * (1 / 2))) ((droot n : ℤ) - 5))
      ∧ dupper n = max (roundHalfEven ((droot n : ℚ) * (17 / 10))) ((droot n : ℤ) + 5) := by
  refine ⟨droot_char n hn, ?_, ?_⟩
  · rw [dlower, pyHalfRound_eq]
  · rw [dupper, pyRound17_eq]

theorem decompose_bounds_formula_witness :
    (1 ≤ 27
      ∧ (((2 * (droot 27 : ℤ) - 1) ^ 3 < 8 * ((27 : ℕ) : ℤ)
          ∧ 8 * ((27 : ℕ) : ℤ) < (2 * (droot 27 : ℤ) + 1) ^ 3)
        ∧ dlower 27 = (if droot 27 ≤ 5 then 0
            else min (roundHalfEven ((droot 27 : ℚ) * (1 / 2))) ((droot 27 : ℤ) - 5))
        ∧ dupper 27 = max (roundHalfEven ((droot 27 : ℚ) * (17 / 10))) ((droot 27 : ℤ) + 5))) :=
  ⟨by norm_num, decompose_bounds_formula 27 (by norm_num)⟩

/-- Claim C9: for every `number ≥ 1` the bounds computed inside `decompose`
satisfy `0 ≤ lower ≤ upper`, so the enumerator's error branches are
unreachable from `decompose` (the call returns the enumeration, not an error)
and `decompose` itself always produces a result. -/
theorem decompose_total_for_positive (n : Nat) (hn : 1 ≤ n) :
    0 ≤ dlower n ∧ dlower n ≤ dupper n
      ∧ unique_enum (.int (dlower n)) (.int (dupper n)) 3
        = .ok (refEnum (dlower n) (dupper n) 3)
      ∧ ∃ r, decompose n = some r :=
  ⟨dlower_nonneg n, dlower_le_dupper n, unique_enum_ok _ _ 3 (dlower_le_dupper n),
    ⟨_, decompose_eq_fold n⟩⟩

theorem decompose_total_for_positive_witness :
    (1 ≤ 1 ∧ (0 ≤ dlower 1 ∧ dlower 1 ≤ dupper 1
      ∧ unique_enum (.int (dlower 1)) (.int (dupper 1)) 3
        = .ok (refEnum (dlower 1) (dupper 1) 3)
      ∧ ∃ r, decompose 1 = some r)) :=
  ⟨le_refl 1, decompose_total_for_positive 1 (le_refl 1)⟩

/-- Claim C10: `decompose 0` terminates normally and returns the triplet
`[0,0,0]` with error `0` (bounds come out as `lower = 0`, `upper = 5`, and the
zero product matches the target exactly; no equal-error candidate is more
cubic than `[0,0,0]`). -/
theorem decompose_zero : decompose 0 = some ([0, 0, 0], 0) := by
  rw [decompose_eq_decomposeI]
  decide
